import Mathlib

/-!
Verification of a fixed-capacity in-place allocator (`src/alloc.cpp`).

The C program manages a 4096-byte arena `simulated_heap` with a 16-byte
quantum.  Byte 0 of the arena is the free-list head cell; a free block of
index `k` stores its previous pointer at byte `16*k`, its chunk count at
byte `16*k + 1`, and its next pointer at its last byte
`16*k + 16*count - 1`.  An allocated block stores its chunk count at byte
`16*k` and the caller holds the address `16*k + 1`.

The arena is shallowly embedded as a total function `Nat → Nat` holding
byte values; stores truncate modulo 256 exactly as storage into `char`
does.  Each C function is translated one-to-one below, keeping its name.
The allocation loop of `rdx_malloc` is given explicit fuel because the C
`while` loop has no a-priori termination guarantee on arbitrary arena
contents; `none` marks fuel exhaustion (the C loop not terminating within
the fuel), `some (h, r)` a completed call returning heap `h` and result
`r` (`r = none` is C's `NULL`).
-/

def HEAP_SIZE : Nat := 4096

def BLOCK_SIZE : Nat := 16

/-- The simulated heap: byte values indexed by absolute position. -/
def Heap : Type := Nat → Nat

/-- Store one byte, truncating the value as storage into `char` does. -/
def writeByte (h : Heap) (i v : Nat) : Heap :=
  fun j => if j = i then v % 256 else h j

/-- The global `char simulated_heap[HEAP_SIZE]` is zero-initialised. -/
def heap0 : Heap := fun _ => 0

/-- C `read_unsigned`: read the byte at `index` (callers stay in bounds). -/
def read_unsigned (h : Heap) (index : Nat) : Nat := h index

/-- C `get_block_bytes`: chunk count at the block's 2nd byte, times 16. -/
def get_block_bytes (h : Heap) (offset : Nat) : Nat :=
  read_unsigned h (1 + offset * 16) * 16

/-- C `get_next`: a free block's next pointer, at its last byte. -/
def get_next (h : Heap) (offset : Nat) : Nat :=
  read_unsigned h (get_block_bytes h offset + offset * 16 - 1)

/-- C `get_prev`: a free block's previous pointer, at its first byte. -/
def get_prev (h : Heap) (offset : Nat) : Nat :=
  read_unsigned h (offset * 16)

/-- C `update_next`: write a free block's next pointer. -/
def update_next (h : Heap) (offset new_next : Nat) : Heap :=
  writeByte h (get_block_bytes h offset + offset * 16 - 1) new_next

/-- C `update_prev`: write a free block's previous pointer. -/
def update_prev (h : Heap) (offset new_prev : Nat) : Heap :=
  writeByte h (offset * 16) new_prev

/-- C `update_size`: write a block's chunk count into its 2nd byte. -/
def update_size (h : Heap) (offset chunks : Nat) : Heap :=
  writeByte h (1 + offset * 16) chunks

/-- C `init_heap`: head cell 1; block 1 has prev 0, next 0, 255 chunks. -/
def init_heap (h : Heap) : Heap :=
  writeByte (writeByte (writeByte (writeByte h 0 1) 16 0) (4096 - 1) 0) (16 + 1) 255

/-- The arena right after `init_heap` runs on the zeroed data segment. -/
def initial : Heap := init_heap heap0

/-- C `rdx_free` on the address `a` (= `ptr - simulated_heap`): read the
chunk count from the preceding byte, recompute the block index (the cast
to `uint8_t` truncates mod 256), rewrite the count at the free-block
offset, and push the block onto the free-list head. -/
def rdx_free (h : Heap) (a : Nat) : Heap :=
  let chunks := h (a - 1)
  let offset := ((a - 1) / 16) % 256
  let h1 := writeByte h (offset * 16 + 1) chunks
  let head := read_unsigned h1 0
  let h2 := update_next h1 offset head
  let h3 := update_prev h2 offset 0
  let h4 := update_size h3 offset chunks
  writeByte h4 0 offset

/-- C's truncated (round-toward-zero) `%` for a positive divisor. -/
def cmod (a b : Int) : Int := if a < 0 then -(-a % b) else a % b

/-- C's truncated (round-toward-zero) `/` for a positive divisor. -/
def cdiv (a b : Int) : Int := if a < 0 then -(-a / b) else a / b

/-- The rounding prologue of `rdx_malloc`: add one header byte and round
up to a multiple of 16, with C's `int` arithmetic. -/
def rounded (bytes : Int) : Int :=
  let b := bytes + 1
  if cmod b 16 ≠ 0 then b + (16 - cmod b 16) else b

/-- The body of `rdx_malloc`'s fit case (source lines 120-157): unlink the
winning block, write its allocated-state chunk count, and if bytes are
left over carve a remainder block and `rdx_free` it.  For the requests
the contract admits (`bytes ≥ -1`), `needed` is non-negative, so the
`Int.toNat` coercions below are exact. -/
def take_block (h : Heap) (needed : Int) (offset : Nat) : Heap :=
  let block_bytes := get_block_bytes h offset
  let prev := get_prev h offset
  let next := get_next h offset
  let h1 := if prev ≠ 0 then update_next h prev next
            else if next ≠ 0 then writeByte h 0 next
            else writeByte h 0 0
  let h2 := if next ≠ 0 then update_prev h1 next prev else h1
  let h3 := writeByte h2 (offset * 16) (cdiv needed 16).toNat
  if needed < (block_bytes : Int) then
    let leftover := block_bytes - needed.toNat
    let chunks := leftover / 16
    let h4 := writeByte h3 (offset * 16 + needed.toNat) chunks
    rdx_free h4 (offset * 16 + needed.toNat + 1)
  else h3

/-- The `while` loop of `rdx_malloc`, walking next pointers from `offset`
until the sentinel 0 or a block of at least `needed` bytes. -/
def mallocLoop (h : Heap) (needed : Int) : Nat → Nat → Option (Heap × Option Nat)
  | _, 0 => none
  | offset, fuel + 1 =>
    if offset = 0 then some (h, none)
    else if needed ≤ (get_block_bytes h offset : Int) then
      some (take_block h needed offset, some (offset * 16 + 1))
    else mallocLoop h needed (get_next h offset) fuel

/-- C `rdx_malloc`: round the request, then walk the free list from the
head cell.  Fuel 4096 is far above any walk a 255-block arena allows. -/
def rdx_malloc (h : Heap) (bytes : Int) : Option (Heap × Option Nat) :=
  mallocLoop h (rounded bytes) (read_unsigned h 0) 4096

/-- Run `rdx_malloc` as a total step for chaining concrete scenarios (the
default branch is never hit on the scenarios below, where the walk
terminates quickly). -/
def stepMalloc (h : Heap) (bytes : Int) : Heap × Option Nat :=
  (rdx_malloc h bytes).getD (h, none)

/-- The free-list walk from the head cell: the block indices visited by
following next pointers, with fuel against cycles. -/
def chainFrom (h : Heap) : Nat → Nat → List Nat
  | 0, _ => []
  | fuel + 1, off => if off = 0 then [] else off :: chainFrom h fuel (get_next h off)

/-- The blocks on the free list, in traversal order from the head cell. -/
def freeList (h : Heap) : List Nat := chainFrom h 4096 (h 0)

/-- Scenario trace for claim C2: initialize, acquire 16 bytes, release it. -/
def C2s1 : Heap × Option Nat := stepMalloc initial 16

/-- Heap after the release step of the C2 trace. -/
def C2h : Heap := rdx_free C2s1.1 (C2s1.2.getD 0)

/-- Scenario trace for claim C3: initialize, acquire 16 bytes. -/
def C3s1 : Heap × Option Nat := stepMalloc initial 16

/-- Heap after releasing the acquired address of the C3 trace. -/
def C3h : Heap := rdx_free C3s1.1 (C3s1.2.getD 0)

/-- Scenario C, first acquire(16). -/
def C5s1 : Heap × Option Nat := stepMalloc initial 16

/-- Scenario C, second acquire(16). -/
def C5s2 : Heap × Option Nat := stepMalloc C5s1.1 16

/-- Scenario C, after releasing the first returned address. -/
def C5h3 : Heap := rdx_free C5s2.1 (C5s1.2.getD 0)

/-- Scenario C, after releasing the second returned address. -/
def C5h4 : Heap := rdx_free C5h3 (C5s2.2.getD 0)

/-- Scenario A, acquire(16) returning P. -/
def C6s1 : Heap × Option Nat := stepMalloc initial 16

/-- Scenario A, after release(P). -/
def C6h2 : Heap := rdx_free C6s1.1 (C6s1.2.getD 0)

/-- Scenario A, the re-acquire(5). -/
def C6s3 : Heap × Option Nat := stepMalloc C6h2 5

/-- Claim C10's call: acquire(-1) on a fresh arena. -/
def C10s : Heap × Option Nat := stepMalloc initial (-1)

/-- Adjacency along the free list: `g` is the block after `f`. -/
def nextRel (h : Heap) (f g : Nat) : Prop := get_next h f = g

/-- Prev pointers along a free-list segment whose predecessor is `p`: each
block's prev byte holds either 0 or its actual predecessor.  The
disjunction reflects the code: `rdx_free` pushes a block in front of the
old head without updating the old head's prev byte, leaving a stale 0. -/
def prevOk (h : Heap) : Nat → List Nat → Prop
  | _, [] => True
  | p, f :: r => (h (16 * f) = 0 ∨ h (16 * f) = p) ∧ prevOk h f r

/-- Two arena regions, given as (start, byte length), do not overlap. -/
def disjR (p q : Nat × Nat) : Prop := p.1 + p.2 ≤ q.1 ∨ q.1 + q.2 ≤ p.1

/-- The full block regions of the live allocations: a live entry holds the
returned payload address `16*k + 1` and the block length, so the block
starts one byte earlier. -/
def liveRgns (live : List (Nat × Nat)) : List (Nat × Nat) :=
  live.map (fun p => (p.1 - 1, p.2))

/-- The block regions of the listed free blocks, sized by their stored
chunk counts. -/
def freeRgns (h : Heap) (FL : List Nat) : List (Nat × Nat) :=
  FL.map (fun f => (16 * f, 16 * h (16 * f + 1)))

/-- The allocator invariant.  `live` records each outstanding allocation as
(payload address, block byte length); `FL` is the list of blocks reachable
from the free-list head cell in traversal order. -/
structure HeapInv (h : Heap) (live : List (Nat × Nat)) (FL : List Nat) : Prop where
  wf : ∀ i, h i ≤ 255
  headOk : h 0 = FL.headD 0
  chain : List.Chain' (nextRel h) (FL ++ [0])
  flPos : ∀ f ∈ FL, 1 ≤ f ∧ f ≤ 255 ∧ 1 ≤ h (16 * f + 1) ∧
    h (16 * f + 1) ≤ 255 ∧ 16 * f + 16 * h (16 * f + 1) ≤ 4096
  flNodup : FL.Nodup
  prevs : prevOk h 0 FL
  liveOk : ∀ p ∈ live, ∃ k, p.1 = 16 * k + 1 ∧ 1 ≤ k ∧ k ≤ 255 ∧
    p.2 = 16 * h (16 * k) ∧ 1 ≤ h (16 * k) ∧ 16 * k + p.2 ≤ 4096
  disj : (liveRgns live ++ freeRgns h FL).Pairwise disjR

/-- The states reachable by call sequences respecting the preconditions:
initialize once, acquire only non-negative sizes, release only addresses
previously returned by acquire and not yet released.  Each live entry is
(returned address, block length taken).  `rdx_malloc` premises of the form
`= some _` say the C loop terminated. -/
inductive Reach : Heap → List (Nat × Nat) → Prop where
  | init : Reach initial []
  | mallocSome {h : Heap} {live : List (Nat × Nat)} {h' : Heap} {bytes : Int} {a : Nat} :
      Reach h live → 0 ≤ bytes → rdx_malloc h bytes = some (h', some a) →
      Reach h' ((a, (rounded bytes).toNat) :: live)
  | mallocNone {h : Heap} {live : List (Nat × Nat)} {h' : Heap} {bytes : Int} :
      Reach h live → 0 ≤ bytes → rdx_malloc h bytes = some (h', none) →
      Reach h' live
  | freeStep {h : Heap} {l1 l2 : List (Nat × Nat)} {a n : Nat} :
      Reach h (l1 ++ (a, n) :: l2) →
      Reach (rdx_free h a) (l1 ++ l2)

/-- The full block regions of two live allocations do not overlap. -/
def blockDisj (p q : Nat × Nat) : Prop :=
  p.1 - 1 + p.2 ≤ q.1 - 1 ∨ q.1 - 1 + q.2 ≤ p.1 - 1

/-- The tail of `take_block` after the unlink: write the allocated-state
chunk count, then split off and free any leftover.  `take_block` is
literally the unlink followed by this (see `take_block_decomp`); keeping
it separate lets the unlink case analysis and the split analysis be proved
independently. -/
def tb_rest (h2 : Heap) (needed : Int) (offset : Nat) (block_bytes : Nat) : Heap :=
  let h3 := writeByte h2 (offset * 16) (cdiv needed 16).toNat
  if needed < (block_bytes : Int) then
    let leftover := block_bytes - needed.toNat
    let chunks := leftover / 16
    let h4 := writeByte h3 (offset * 16 + needed.toNat) chunks
    rdx_free h4 (offset * 16 + needed.toNat + 1)
  else h3

theorem wb_eq (h : Heap) (i v : Nat) : writeByte h i v i = v % 256 := by
  simp [writeByte]

theorem wb_ne (h : Heap) (i v j : Nat) (hj : j ≠ i) : writeByte h i v j = h j := by
  simp [writeByte, hj]

/-- Pointwise description of `rdx_free` on a block-aligned payload address
`16*k + 1` with a valid stored chunk count: the head cell becomes `k`, the
block's prev byte becomes 0, its chunk count is rewritten at its 2nd byte,
the old head is written at the block's last byte, and no other arena byte
changes. -/
theorem rdx_free_read (h : Heap) (k j : Nat) (hk1 : 1 ≤ k) (hk2 : k ≤ 255)
    (hc1 : 1 ≤ h (16 * k)) (hc2 : h (16 * k) ≤ 255) :
    rdx_free h (16 * k + 1) j =
      if j = 0 then k
      else if j = 16 * k then 0
      else if j = 16 * k + 1 then h (16 * k)
      else if j = 16 * k + 16 * h (16 * k) - 1 then h 0 % 256
      else h j := by
  have e1 : 16 * k + 1 - 1 = 16 * k := by omega
  have e2 : 16 * k / 16 = k := Nat.mul_div_cancel_left k (by norm_num)
  have e3 : k % 256 = k := by omega
  simp only [rdx_free, e1, e2, e3, update_next, update_prev, update_size,
    get_block_bytes, read_unsigned, writeByte]
  split_ifs <;> try contradiction
  all_goals omega

/-- Claim C2 (status: code_bug). After initialize; acquire(16); release,
walking the free list from the head visits blocks 1 then 3 without
revisiting any block, yet block 1's next pointer is 3 ≠ 0 while block 3's
prev pointer is 0, not 1: the prev/next mutual-consistency half of the
claim fails because `rdx_free` never updates the old head's prev pointer. -/
theorem C2_consistency_violation :
    C2s1.2 = some 17 ∧ freeList C2h = [1, 3] ∧
      get_next C2h 1 = 3 ∧ (3 : Nat) ≠ 0 ∧ get_prev C2h 3 = 0 ∧ (0 : Nat) ≠ 1 := by
  decide

/-- Claim C3 (status: code_bug). After initialize; acquire(16) (free-list
head is then block 3 ≠ 0), releasing the returned address 17 (block 1)
leaves the old head block 3's prev pointer at 0, not at the released
block's index 1, because `rdx_free` contains no write to the old head's
prev byte. -/
theorem C3_old_head_prev_not_updated :
    C3s1.2 = some 17 ∧ C3s1.1 0 = 3 ∧ (17 - 1) / 16 = 1 ∧
      get_prev C3h 3 = 0 ∧ (0 : Nat) ≠ 1 := by
  decide

/-- Claim C4, counterexample. On a freshly initialized arena, acquire(4080)
returns NULL (4080 + 1 rounds up to 4096, which exceeds the single free
block's 4080 bytes) and leaves the arena unchanged — the claim says this
call succeeds. -/
theorem C4_counterexample : rdx_malloc initial 4080 = some (initial, none) := rfl

/-- Claim C4 as amended: on a freshly initialized arena, acquire(4079) (the
full usable capacity minus the one-byte header) succeeds returning address
17, and after that success a further acquire(1) without any intervening
release fails while leaving the arena unchanged. -/
theorem C4_amended_max_request :
    (stepMalloc initial 4079).2 = some 17 ∧
      rdx_malloc (stepMalloc initial 4079).1 1 =
        some ((stepMalloc initial 4079).1, none) := by
  exact ⟨by decide, rfl⟩

/-- Claim C5, counterexample. After initialize; acquire(16) → 17;
acquire(16) → 49; release(17); release(49), the free list does not contain
exactly two blocks: the walk from the head yields three blocks. -/
theorem C5_counterexample :
    C5s1.2 = some 17 ∧ C5s2.2 = some 49 ∧ (freeList C5h4).length ≠ 2 := by
  decide

/-- Claim C5 as amended: after initialize; acquire(16) → 17; acquire(16) →
49; release(17); release(49), the free list contains exactly three blocks —
the second released block (index 3 = (49-1)/16) at the head, then the first
released block (index 1 = (17-1)/16), then block 5, the still-free
remainder carved off during the second acquire. -/
theorem C5_amended_three_blocks :
    C5s1.2 = some 17 ∧ C5s2.2 = some 49 ∧ freeList C5h4 = [3, 1, 5] ∧
      C5h4 0 = (49 - 1) / 16 ∧ (17 - 1) / 16 = 1 := by
  decide

/-- Claim C6 (status: confirmed). After initialize; acquire(16) returns
P = 17 whose block spans arena bytes 16..47 (chunk count 2 stored at byte
16); after release(17), acquire(5) succeeds and returns address 17, which
lies inside the region [16, 48) previously occupied by P's block. -/
theorem C6_lifo_reuse :
    C6s1.2 = some 17 ∧ C6s1.1 16 = 2 ∧ C6s3.2 = some 17 ∧
      16 ≤ 17 - 1 + 1 ∧ 17 < 16 + 16 * 2 := by
  decide

/-- Claim C10 (status: confirmed). acquire(-1) on a fresh arena computes a
needed block length of 0 bytes, succeeds returning address 17, and
afterwards the free-list head cell names block 1 whose bytes
[16, 16 + 16·255) include the returned address 17. -/
theorem C10_negative_request :
    rounded (-1) = 0 ∧ C10s.2 = some 17 ∧ C10s.1 0 = 1 ∧
      C10s.1 (16 * 1 + 1) = 255 ∧ 16 * 1 ≤ 17 ∧ 17 < 16 * 1 + 16 * 255 := by
  decide

/-- Claim C8 (status: confirmed). For every non-negative request `r`, the
block length `rdx_malloc` searches for, `rounded r`, is the smallest
multiple of 16 that is at least `r + 1`; in particular a zero-byte request
needs exactly one 16-byte quantum. -/
theorem C8_block_length (r : Int) (hr : 0 ≤ r) :
    (16 : Int) ∣ rounded r ∧ r + 1 ≤ rounded r ∧
      (∀ m : Int, (16 : Int) ∣ m → r + 1 ≤ m → rounded r ≤ m) ∧
      rounded 0 = 16 := by
  refine ⟨?_, ?_, ?_, by decide⟩
  · simp only [rounded, cmod]
    split_ifs <;> omega
  · simp only [rounded, cmod]
    split_ifs <;> omega
  · intro m hm hle
    simp only [rounded, cmod]
    split_ifs <;> omega

/-- Witness for C8 at the concrete request 5: the hypothesis 0 ≤ 5 holds
and the searched-for block length is 16. -/
theorem C8_block_length_witness : (0 : Int) ≤ 5 ∧ rounded 5 = 16 := by
  refine ⟨by decide, ?_⟩
  obtain ⟨hdvd, hge, hmin, -⟩ := C8_block_length 5 (by decide)
  have h16 := hmin 16 (by decide) (by decide)
  omega

/-- Claim C9 (status: confirmed). Releasing the validly acquired address
`16*k + 1` (so the allocated chunk count `c = h (16*k)` sits in the byte
before it) rewrites `c` at byte 1 of the block, sets the block's next
pointer to the previous free-list head, sets its prev pointer to 0, and
sets the head cell to the block's index `k`. -/
theorem C9_release_postcondition (h : Heap) (k : Nat)
    (hk1 : 1 ≤ k) (hk2 : k ≤ 255) (hd : h 0 ≤ 255)
    (hc1 : 1 ≤ h (16 * k)) (hc2 : h (16 * k) ≤ 255) :
    rdx_free h (16 * k + 1) (16 * k + 1) = h (16 * k) ∧
      get_next (rdx_free h (16 * k + 1)) k = h 0 ∧
      get_prev (rdx_free h (16 * k + 1)) k = 0 ∧
      rdx_free h (16 * k + 1) 0 = k := by
  have hr := rdx_free_read h k
  have h1 : rdx_free h (16 * k + 1) (16 * k + 1) = h (16 * k) := by
    rw [hr (16 * k + 1) hk1 hk2 hc1 hc2]
    split_ifs <;> try contradiction
    all_goals omega
  refine ⟨h1, ?_, ?_, ?_⟩
  · unfold get_next get_block_bytes read_unsigned
    have e : 1 + k * 16 = 16 * k + 1 := by ring
    rw [e, h1]
    have e2 : h (16 * k) * 16 + k * 16 - 1 = 16 * k + 16 * h (16 * k) - 1 := by omega
    rw [e2, hr (16 * k + 16 * h (16 * k) - 1) hk1 hk2 hc1 hc2]
    split_ifs <;> try contradiction
    all_goals omega
  · unfold get_prev read_unsigned
    have e : k * 16 = 16 * k := by ring
    rw [e, hr (16 * k) hk1 hk2 hc1 hc2]
    split_ifs <;> try contradiction
    all_goals omega
  · rw [hr 0 hk1 hk2 hc1 hc2]
    split_ifs <;> try contradiction
    all_goals omega

/-- Witness for C9: releasing address 17 (= 16·1 + 1) after a single
acquire(16) on a fresh arena sets the head cell to block index 1. -/
theorem C9_release_postcondition_witness :
    rdx_free (stepMalloc initial 16).1 (16 * 1 + 1) 0 = 1 := by
  have h := C9_release_postcondition (stepMalloc initial 16).1 1
    (by decide) (by decide) (by decide) (by decide) (by decide)
  exact h.2.2.2

theorem gbb_eq (h : Heap) (f : Nat) : get_block_bytes h f = h (16 * f + 1) * 16 := by
  unfold get_block_bytes read_unsigned
  rw [show 1 + f * 16 = 16 * f + 1 from by ring]

theorem get_next_eq (h : Heap) (f : Nat) :
    get_next h f = h (16 * f + 16 * h (16 * f + 1) - 1) := by
  unfold get_next read_unsigned
  rw [gbb_eq]
  have e : h (16 * f + 1) * 16 + f * 16 - 1 = 16 * f + 16 * h (16 * f + 1) - 1 := by omega
  rw [e]

theorem get_prev_eq (h : Heap) (f : Nat) : get_prev h f = h (16 * f) := by
  unfold get_prev read_unsigned
  rw [show f * 16 = 16 * f from by ring]

theorem update_next_eq (h : Heap) (f v : Nat) :
    update_next h f v = writeByte h (16 * f + 16 * h (16 * f + 1) - 1) v := by
  unfold update_next
  rw [gbb_eq]
  have e : h (16 * f + 1) * 16 + f * 16 - 1 = 16 * f + 16 * h (16 * f + 1) - 1 := by omega
  rw [e]

theorem update_prev_eq (h : Heap) (f v : Nat) :
    update_prev h f v = writeByte h (16 * f) v := by
  unfold update_prev
  rw [show f * 16 = 16 * f from by ring]

theorem getLastD_mem : ∀ (l : List Nat) (d : Nat), l ≠ [] → l.getLastD d ∈ l
  | [], _, hne => absurd rfl hne
  | [a], _, _ => by simp [List.getLastD]
  | a :: b :: t, d, _ => by
    rw [List.getLastD_cons]
    exact List.mem_cons_of_mem a (getLastD_mem (b :: t) a (by simp))

theorem head?_append_singleton (S : List Nat) (z : Nat) :
    (S ++ [z]).head? = some (S.headD z) := by
  cases S <;> simp

theorem chain'_of_agree (h h' : Heap) :
    ∀ l : List Nat, (∀ a ∈ l.dropLast, get_next h' a = get_next h a) →
      List.Chain' (nextRel h) l → List.Chain' (nextRel h') l
  | [], _, _ => List.chain'_nil
  | [_], _, _ => List.chain'_singleton _
  | a :: b :: t, hag, hc => by
    rw [List.chain'_cons] at hc ⊢
    refine ⟨?_, chain'_of_agree h h' (b :: t) ?_ hc.2⟩
    · have ha := hag a (by simp)
      unfold nextRel at hc ⊢
      rw [ha]
      exact hc.1
    · intro x hx
      refine hag x ?_
      rw [List.dropLast_cons₂]
      exact List.mem_cons_of_mem a hx

theorem prevOk_append (h : Heap) :
    ∀ (l1 : List Nat) (p : Nat) (l2 : List Nat),
      prevOk h p (l1 ++ l2) ↔ prevOk h p l1 ∧ prevOk h (l1.getLastD p) l2
  | [], p, l2 => by simp [prevOk, List.getLastD]
  | f :: r, p, l2 => by
    simp only [List.cons_append, prevOk, List.getLastD_cons, List.append_eq]
    rw [prevOk_append h r f l2]
    tauto

theorem prevOk_congr (h h' : Heap) :
    ∀ (l : List Nat) (p : Nat), (∀ f ∈ l, h' (16 * f) = h (16 * f)) →
      prevOk h p l → prevOk h' p l
  | [], _, _, _ => trivial
  | f :: r, p, hag, hp => by
    refine ⟨?_, prevOk_congr h h' r f (fun x hx => hag x (List.mem_cons_of_mem f hx)) hp.2⟩
    rw [hag f (List.mem_cons_self f r)]
    exact hp.1

theorem disjR_symm : ∀ {p q : Nat × Nat}, disjR p q → disjR q p := by
  intro p q hpq
  unfold disjR at hpq ⊢
  tauto

theorem pairwise_disj_perm {l1 l2 : List (Nat × Nat)} (hp : l1.Perm l2)
    (hd : l1.Pairwise disjR) : l2.Pairwise disjR :=
  (hp.pairwise_iff (fun hx => disjR_symm hx)).mp hd

theorem chain_next_at (h : Heap) (pre S : List Nat) (f : Nat)
    (hc : List.Chain' (nextRel h) ((pre ++ f :: S) ++ [0])) :
    get_next h f = S.headD 0 := by
  rw [List.append_assoc, List.cons_append] at hc
  have h2 := (List.chain'_append.mp hc).2.1
  have h3 := (List.chain'_cons'.mp h2).1
  exact h3 (S.headD 0) (by rw [head?_append_singleton]; rfl)

/-- Pushing a fresh, disjoint, correctly-sized block `k` onto the free
list via `rdx_free` preserves the allocator invariant and puts `k` at the
head of the chain.  This covers both a top-level release and the
remainder insertion inside `rdx_malloc`'s split. -/
theorem free_push (h : Heap) (live : List (Nat × Nat)) (FL : List Nat) (k : Nat)
    (wf : ∀ i, h i ≤ 255)
    (headOk : h 0 = FL.headD 0)
    (chain : List.Chain' (nextRel h) (FL ++ [0]))
    (flPos : ∀ f ∈ FL, 1 ≤ f ∧ f ≤ 255 ∧ 1 ≤ h (16 * f + 1) ∧
      h (16 * f + 1) ≤ 255 ∧ 16 * f + 16 * h (16 * f + 1) ≤ 4096)
    (flNodup : FL.Nodup)
    (prevs : prevOk h 0 FL)
    (liveOk : ∀ p ∈ live, ∃ j, p.1 = 16 * j + 1 ∧ 1 ≤ j ∧ j ≤ 255 ∧
      p.2 = 16 * h (16 * j) ∧ 1 ≤ h (16 * j) ∧ 16 * j + p.2 ≤ 4096)
    (disj : (liveRgns live ++ freeRgns h FL).Pairwise disjR)
    (hk1 : 1 ≤ k) (hk2 : k ≤ 255)
    (hc1 : 1 ≤ h (16 * k)) (hc2 : h (16 * k) ≤ 255)
    (hcap : 16 * k + 16 * h (16 * k) ≤ 4096)
    (fresh : ∀ r ∈ liveRgns live ++ freeRgns h FL, disjR (16 * k, 16 * h (16 * k)) r) :
    HeapInv (rdx_free h (16 * k + 1)) live (k :: FL) := by
  have hR : ∀ j, rdx_free h (16 * k + 1) j =
      if j = 0 then k else if j = 16 * k then 0
      else if j = 16 * k + 1 then h (16 * k)
      else if j = 16 * k + 16 * h (16 * k) - 1 then h 0 % 256 else h j :=
    fun j => rdx_free_read h k j hk1 hk2 hc1 hc2
  have r0 : rdx_free h (16 * k + 1) 0 = k := by
    rw [hR 0]
    split_ifs <;> try contradiction
    all_goals omega
  have rp : rdx_free h (16 * k + 1) (16 * k) = 0 := by
    rw [hR (16 * k)]
    split_ifs <;> try contradiction
    all_goals omega
  have rs : rdx_free h (16 * k + 1) (16 * k + 1) = h (16 * k) := by
    rw [hR (16 * k + 1)]
    split_ifs <;> try contradiction
    all_goals omega
  have rn : rdx_free h (16 * k + 1) (16 * k + 16 * h (16 * k) - 1) = h 0 := by
    have w0 := wf 0
    rw [hR (16 * k + 16 * h (16 * k) - 1)]
    split_ifs <;> try contradiction
    all_goals omega
  have rother : ∀ j, j ≠ 0 → j ≠ 16 * k → j ≠ 16 * k + 1 →
      j ≠ 16 * k + 16 * h (16 * k) - 1 → rdx_free h (16 * k + 1) j = h j := by
    intro j h1 h2 h3 h4
    rw [hR j]
    split_ifs <;> try contradiction
    all_goals omega
  have freshF : ∀ f ∈ FL, 16 * k + 16 * h (16 * k) ≤ 16 * f ∨
      16 * f + 16 * h (16 * f + 1) ≤ 16 * k := by
    intro f hf
    have hm := fresh (16 * f, 16 * h (16 * f + 1)) (by
      apply List.mem_append_right
      unfold freeRgns
      exact List.mem_map_of_mem _ hf)
    unfold disjR at hm
    tauto
  have hsz : ∀ f ∈ FL, rdx_free h (16 * k + 1) (16 * f + 1) = h (16 * f + 1) := by
    intro f hf
    have hp := flPos f hf
    have hd := freshF f hf
    exact rother _ (by omega) (by omega) (by omega) (by omega)
  have hpv : ∀ f ∈ FL, rdx_free h (16 * k + 1) (16 * f) = h (16 * f) := by
    intro f hf
    have hp := flPos f hf
    have hd := freshF f hf
    exact rother _ (by omega) (by omega) (by omega) (by omega)
  have hnx : ∀ f ∈ FL, get_next (rdx_free h (16 * k + 1)) f = get_next h f := by
    intro f hf
    have hp := flPos f hf
    have hd := freshF f hf
    rw [get_next_eq, get_next_eq, hsz f hf]
    exact rother _ (by omega) (by omega) (by omega) (by omega)
  constructor
  · -- wf
    intro i
    have w1 := wf i
    have w0 := wf 0
    rw [hR i]
    split_ifs <;> try contradiction
    all_goals omega
  · -- headOk
    rw [r0]
    rfl
  · -- chain
    rw [List.cons_append]
    refine List.chain'_cons'.mpr ⟨?_, ?_⟩
    · intro y hy
      rw [head?_append_singleton] at hy
      have hy' : y = FL.headD 0 := by
        simpa using hy.symm
      subst hy'
      show get_next (rdx_free h (16 * k + 1)) k = FL.headD 0
      rw [get_next_eq, rs, rn, headOk]
    · refine chain'_of_agree h (rdx_free h (16 * k + 1)) (FL ++ [0]) ?_ chain
      intro a ha
      rw [List.dropLast_concat] at ha
      exact hnx a ha
  · -- flPos
    intro f hf
    rcases List.mem_cons.mp hf with hfk | hfl
    · subst hfk
      rw [rs]
      exact ⟨hk1, hk2, hc1, hc2, hcap⟩
    · rw [hsz f hfl]
      exact flPos f hfl
  · -- flNodup
    refine List.nodup_cons.mpr ⟨?_, flNodup⟩
    intro hk
    have hd := freshF k hk
    have hp := flPos k hk
    omega
  · -- prevs
    refine ⟨Or.inl rp, ?_⟩
    cases FL with
    | nil => trivial
    | cons f1 r =>
      have h1 : h (16 * f1) = 0 := by
        rcases prevs.1 with h0 | h0 <;> exact h0
      refine ⟨Or.inl ?_, ?_⟩
      · rw [hpv f1 (List.mem_cons_self f1 r)]
        exact h1
      · refine prevOk_congr h (rdx_free h (16 * k + 1)) r f1 ?_ prevs.2
        intro x hx
        exact hpv x (List.mem_cons_of_mem f1 hx)
  · -- liveOk
    intro p hp
    obtain ⟨j, hj1, hj2, hj3, hj4, hj5, hj6⟩ := liveOk p hp
    have hm := fresh (p.1 - 1, p.2) (by
      apply List.mem_append_left
      unfold liveRgns
      exact List.mem_map_of_mem _ hp)
    unfold disjR at hm
    simp only at hm
    have hjr : rdx_free h (16 * k + 1) (16 * j) = h (16 * j) := by
      refine rother _ (by omega) (by omega) (by omega) (by omega)
    exact ⟨j, hj1, hj2, hj3, by rw [hjr]; exact hj4, by rw [hjr]; exact hj5, hj6⟩
  · -- disj
    have hfr : freeRgns (rdx_free h (16 * k + 1)) (k :: FL) =
        (16 * k, 16 * h (16 * k)) :: freeRgns h FL := by
      unfold freeRgns
      rw [List.map_cons, rs]
      congr 1
      refine List.map_congr_left ?_
      intro f hf
      rw [hsz f hf]
    rw [hfr, List.pairwise_middle (fun hxy => disjR_symm hxy)]
    exact List.pairwise_cons.mpr ⟨fresh, disj⟩

theorem take_block_decomp (h : Heap) (needed : Int) (offset : Nat) :
    take_block h needed offset =
      tb_rest
        (if get_next h offset ≠ 0 then
          update_prev
            (if get_prev h offset ≠ 0 then
              update_next h (get_prev h offset) (get_next h offset)
             else if get_next h offset ≠ 0 then writeByte h 0 (get_next h offset)
             else writeByte h 0 0)
            (get_next h offset) (get_prev h offset)
         else
          (if get_prev h offset ≠ 0 then
            update_next h (get_prev h offset) (get_next h offset)
           else if get_next h offset ≠ 0 then writeByte h 0 (get_next h offset)
           else writeByte h 0 0))
        needed offset (get_block_bytes h offset) := rfl

theorem cdiv_toNat (q : Nat) : (cdiv ((16 * q : Nat) : Int) 16).toNat = q := by
  unfold cdiv
  split_ifs <;> omega

theorem disjR_mono (s l s2 l2 : Nat) (r : Nat × Nat) (hs : s ≤ s2) (hl : s2 + l2 ≤ s + l)
    (hd : disjR (s, l) r) : disjR (s2, l2) r := by
  unfold disjR at hd ⊢
  simp only at hd ⊢
  omega

/-- After the unlink has produced a heap `h2` whose chain `FL2` no longer
contains the winning block `f` (original chunk count `c`, fitting the
needed `16*q` bytes), finishing `take_block` — writing the allocated
header and, on a strict fit, carving and freeing the remainder — yields a
heap satisfying the invariant with the new allocation recorded. -/
theorem take_finish (h2 : Heap) (live : List (Nat × Nat)) (FL2 : List Nat) (f q c : Nat)
    (wf2 : ∀ i, h2 i ≤ 255)
    (headOk2 : h2 0 = FL2.headD 0)
    (chain2 : List.Chain' (nextRel h2) (FL2 ++ [0]))
    (flPos2 : ∀ g ∈ FL2, 1 ≤ g ∧ g ≤ 255 ∧ 1 ≤ h2 (16 * g + 1) ∧
      h2 (16 * g + 1) ≤ 255 ∧ 16 * g + 16 * h2 (16 * g + 1) ≤ 4096)
    (flNodup2 : FL2.Nodup)
    (prevs2 : prevOk h2 0 FL2)
    (liveOk2 : ∀ p ∈ live, ∃ j, p.1 = 16 * j + 1 ∧ 1 ≤ j ∧ j ≤ 255 ∧
      p.2 = 16 * h2 (16 * j) ∧ 1 ≤ h2 (16 * j) ∧ 16 * j + p.2 ≤ 4096)
    (disj2 : (liveRgns live ++ freeRgns h2 FL2).Pairwise disjR)
    (hfre : ∀ r ∈ liveRgns live ++ freeRgns h2 FL2, disjR (16 * f, 16 * c) r)
    (hf1 : 1 ≤ f) (hf2 : f ≤ 255) (hq1 : 1 ≤ q) (hqc : q ≤ c) (hcc : c ≤ 255)
    (hcap : 16 * f + 16 * c ≤ 4096) :
    ∃ FL3, HeapInv (tb_rest h2 ((16 * q : Nat) : Int) f (16 * c))
      ((16 * f + 1, 16 * q) :: live) FL3 := by
  have htn : (((16 * q : Nat) : Int)).toNat = 16 * q := by omega
  have hcd := cdiv_toNat q
  have hf16 : f * 16 = 16 * f := by ring
  have hq256 : q % 256 = q := by omega
  have hfgmem : ∀ g ∈ FL2, disjR ((16 * f : Nat), (16 * c : Nat))
      (16 * g, 16 * h2 (16 * g + 1)) := by
    intro g hg
    refine hfre _ (List.mem_append_right _ ?_)
    unfold freeRgns
    exact List.mem_map_of_mem _ hg
  have hfg : ∀ g ∈ FL2, 16 * f + 16 * c ≤ 16 * g ∨
      16 * g + 16 * h2 (16 * g + 1) ≤ 16 * f := by
    intro g hg
    have hd := hfgmem g hg
    unfold disjR at hd
    simp only at hd
    tauto
  have hfj : ∀ p ∈ live, disjR ((16 * f : Nat), (16 * c : Nat)) (p.1 - 1, p.2) := by
    intro p hp
    refine hfre _ (List.mem_append_left _ ?_)
    unfold liveRgns
    exact List.mem_map_of_mem _ hp
  -- facts about h3 = writeByte h2 (16 * f) q
  have h3f : writeByte h2 (16 * f) q (16 * f) = q := by rw [wb_eq, hq256]
  have h3o : ∀ j, j ≠ 16 * f → writeByte h2 (16 * f) q j = h2 j :=
    fun j hj => wb_ne _ _ _ _ hj
  have h3sz : ∀ g ∈ FL2, writeByte h2 (16 * f) q (16 * g + 1) = h2 (16 * g + 1) :=
    fun g _ => h3o _ (by omega)
  have h3pv : ∀ g ∈ FL2, writeByte h2 (16 * f) q (16 * g) = h2 (16 * g) := by
    intro g hg
    have hd := hfg g hg
    have hp := flPos2 g hg
    exact h3o _ (by omega)
  have h3nx : ∀ g ∈ FL2, get_next (writeByte h2 (16 * f) q) g = get_next h2 g := by
    intro g hg
    have hp := flPos2 g hg
    rw [get_next_eq, get_next_eq, h3sz g hg]
    exact h3o _ (by omega)
  have h3live : ∀ p ∈ live, ∃ j, p.1 = 16 * j + 1 ∧ 1 ≤ j ∧ j ≤ 255 ∧
      p.2 = 16 * writeByte h2 (16 * f) q (16 * j) ∧
      1 ≤ writeByte h2 (16 * f) q (16 * j) ∧ 16 * j + p.2 ≤ 4096 := by
    intro p hp
    obtain ⟨j, hj1, hj2, hj3, hj4, hj5, hj6⟩ := liveOk2 p hp
    have hd := hfj p hp
    unfold disjR at hd
    simp only at hd
    have hjne : 16 * j ≠ 16 * f := by omega
    exact ⟨j, hj1, hj2, hj3, by rw [h3o _ hjne]; exact hj4, by rw [h3o _ hjne]; exact hj5, hj6⟩
  have h3fr : freeRgns (writeByte h2 (16 * f) q) FL2 = freeRgns h2 FL2 := by
    unfold freeRgns
    refine List.map_congr_left ?_
    intro g hg
    rw [h3sz g hg]
  by_cases hsplit : q < c
  · -- strict fit: split, push the remainder f + q with count c - q
    have hlt : (((16 * q : Nat) : Int)) < (((16 * c : Nat)) : Int) := by omega
    simp only [tb_rest]
    rw [if_pos hlt, htn, hcd, hf16]
    have hdiv : (16 * c - 16 * q) / 16 = c - q := by omega
    rw [hdiv]
    have haddr : 16 * f + 16 * q + 1 = 16 * (f + q) + 1 := by ring
    have hidx : 16 * f + 16 * q = 16 * (f + q) := by ring
    rw [haddr]
    -- the heap before the final rdx_free
    have h4f : writeByte (writeByte h2 (16 * f) q) (16 * f + 16 * q) (c - q) (16 * f) = q := by
      rw [wb_ne _ _ _ _ (by omega), h3f]
    have h4k : writeByte (writeByte h2 (16 * f) q) (16 * f + 16 * q) (c - q) (16 * (f + q)) =
        c - q := by
      rw [← hidx, wb_eq]
      omega
    have h4o : ∀ j, j ≠ 16 * f → j ≠ 16 * f + 16 * q →
        writeByte (writeByte h2 (16 * f) q) (16 * f + 16 * q) (c - q) j = h2 j := by
      intro j hj1 hj2
      rw [wb_ne _ _ _ _ hj2, h3o _ hj1]
    have h4sz : ∀ g ∈ FL2, writeByte (writeByte h2 (16 * f) q) (16 * f + 16 * q) (c - q)
        (16 * g + 1) = h2 (16 * g + 1) :=
      fun g _ => h4o _ (by omega) (by omega)
    have h4pv : ∀ g ∈ FL2, writeByte (writeByte h2 (16 * f) q) (16 * f + 16 * q) (c - q)
        (16 * g) = h2 (16 * g) := by
      intro g hg
      have hd := hfg g hg
      have hp := flPos2 g hg
      exact h4o _ (by omega) (by omega)
    have h4nx : ∀ g ∈ FL2, get_next (writeByte (writeByte h2 (16 * f) q)
        (16 * f + 16 * q) (c - q)) g = get_next h2 g := by
      intro g hg
      have hd := hfg g hg
      have hp := flPos2 g hg
      rw [get_next_eq, get_next_eq, h4sz g hg]
      exact h4o _ (by omega) (by omega)
    have h4fr : freeRgns (writeByte (writeByte h2 (16 * f) q) (16 * f + 16 * q) (c - q)) FL2 =
        freeRgns h2 FL2 := by
      unfold freeRgns
      refine List.map_congr_left ?_
      intro g hg
      rw [h4sz g hg]
    refine ⟨(f + q) :: FL2, ?_⟩
    have hpush := free_push (writeByte (writeByte h2 (16 * f) q) (16 * f + 16 * q) (c - q))
      ((16 * f + 1, 16 * q) :: live) FL2 (f + q)
      ?_ ?_ ?_ ?_ flNodup2 ?_ ?_ ?_ ?_ ?_ ?_ ?_ ?_ ?_
    · exact hpush
    · -- wf
      intro i
      by_cases hi2 : i = 16 * f + 16 * q
      · subst hi2
        rw [wb_eq]
        omega
      · rw [wb_ne _ _ _ _ hi2]
        by_cases hi1 : i = 16 * f
        · subst hi1
          rw [wb_eq]
          omega
        · rw [wb_ne _ _ _ _ hi1]
          exact wf2 i
    · -- headOk
      rw [h4o 0 (by omega) (by omega)]
      exact headOk2
    · -- chain
      refine chain'_of_agree h2 _ (FL2 ++ [0]) ?_ chain2
      intro a ha
      rw [List.dropLast_concat] at ha
      exact h4nx a ha
    · -- flPos
      intro g hg
      rw [h4sz g hg]
      exact flPos2 g hg
    · -- prevs
      cases FL2 with
      | nil => trivial
      | cons g1 r =>
        refine ⟨?_, ?_⟩
        · rw [h4pv g1 (List.mem_cons_self g1 r)]
          exact prevs2.1
        · refine prevOk_congr h2 _ r g1 ?_ prevs2.2
          intro x hx
          exact h4pv x (List.mem_cons_of_mem g1 hx)
    · -- liveOk
      intro p hp
      rcases List.mem_cons.mp hp with hphead | hptail
      · subst hphead
        refine ⟨f, rfl, hf1, hf2, ?_, ?_, by omega⟩
        · rw [h4f]
        · rw [h4f]
          exact hq1
      · obtain ⟨j, hj1, hj2, hj3, hj4, hj5, hj6⟩ := liveOk2 p hptail
        have hd := hfj p hptail
        unfold disjR at hd
        simp only at hd
        have hjo : writeByte (writeByte h2 (16 * f) q) (16 * f + 16 * q) (c - q) (16 * j) =
            h2 (16 * j) := h4o _ (by omega) (by omega)
        exact ⟨j, hj1, hj2, hj3, by rw [hjo]; exact hj4, by rw [hjo]; exact hj5, hj6⟩
    · -- disj
      rw [h4fr]
      show ((16 * f + 1 - 1, 16 * q) :: (liveRgns live ++ freeRgns h2 FL2)).Pairwise disjR
      have he : 16 * f + 1 - 1 = 16 * f := by omega
      rw [he]
      refine List.pairwise_cons.mpr ⟨?_, disj2⟩
      intro r hr
      exact disjR_mono (16 * f) (16 * c) (16 * f) (16 * q) r (le_refl _) (by omega) (hfre r hr)
    · -- hk1
      omega
    · -- hk2
      omega
    · -- hc1
      rw [h4k]
      omega
    · -- hc2
      rw [h4k]
      omega
    · -- hcap
      rw [h4k]
      omega
    · -- fresh
      rw [h4k, h4fr]
      intro r hr
      rcases List.mem_cons.mp hr with hrhead | hrtail
      · subst hrhead
        show disjR (16 * (f + q), 16 * (c - q)) (16 * f + 1 - 1, 16 * q)
        unfold disjR
        simp only
        omega
      · exact disjR_mono (16 * f) (16 * c) (16 * (f + q)) (16 * (c - q)) r
          (by omega) (by omega) (hfre r hrtail)
  · -- exact fit: q = c, no split
    have hqec : q = c := by omega
    have hlt : ¬((((16 * q : Nat) : Int)) < (((16 * c : Nat)) : Int)) := by omega
    simp only [tb_rest]
    rw [if_neg hlt, hcd, hf16]
    refine ⟨FL2, ?_⟩
    constructor
    · -- wf
      intro i
      by_cases hi : i = 16 * f
      · subst hi
        rw [wb_eq]
        omega
      · rw [wb_ne _ _ _ _ hi]
        exact wf2 i
    · -- headOk
      rw [h3o 0 (by omega)]
      exact headOk2
    · -- chain
      refine chain'_of_agree h2 _ (FL2 ++ [0]) ?_ chain2
      intro a ha
      rw [List.dropLast_concat] at ha
      exact h3nx a ha
    · -- flPos
      intro g hg
      rw [h3sz g hg]
      exact flPos2 g hg
    · -- flNodup
      exact flNodup2
    · -- prevs
      cases FL2 with
      | nil => trivial
      | cons g1 r =>
        refine ⟨?_, ?_⟩
        · rw [h3pv g1 (List.mem_cons_self g1 r)]
          exact prevs2.1
        · refine prevOk_congr h2 _ r g1 ?_ prevs2.2
          intro x hx
          exact h3pv x (List.mem_cons_of_mem g1 hx)
    · -- liveOk
      intro p hp
      rcases List.mem_cons.mp hp with hphead | hptail
      · subst hphead
        refine ⟨f, rfl, hf1, hf2, ?_, ?_, by omega⟩
        · rw [h3f]
        · rw [h3f]
          exact hq1
      · exact h3live p hptail
    · -- disj
      rw [h3fr]
      show ((16 * f + 1 - 1, 16 * q) :: (liveRgns live ++ freeRgns h2 FL2)).Pairwise disjR
      have he : 16 * f + 1 - 1 = 16 * f := by omega
      rw [he]
      refine List.pairwise_cons.mpr ⟨?_, disj2⟩
      intro r hr
      exact disjR_mono (16 * f) (16 * c) (16 * f) (16 * q) r (le_refl _) (by omega) (hfre r hr)

/-- Fit case of `rdx_malloc` when the winning block `f`'s prev byte is 0:
the code treats `f` as the list head and sets the head cell to `f`'s next
pointer.  Every block before `f` in the chain (the whole `pre`) is
silently dropped from the list; the new chain is the suffix `S`.  The
dropped blocks stay disjoint from everything, so the invariant survives
with the shorter chain. -/
theorem malloc_fit_head (h : Heap) (live : List (Nat × Nat)) (pre S : List Nat) (f q : Nat)
    (inv : HeapInv h live (pre ++ f :: S)) (hq1 : 1 ≤ q) (hfit : q ≤ h (16 * f + 1))
    (hpz : h (16 * f) = 0) :
    ∃ FL3, HeapInv (take_block h ((16 * q : Nat) : Int) f)
      ((16 * f + 1, 16 * q) :: live) FL3 := by
  obtain ⟨wf, headOk, chain, flPos, flNodup, prevs, liveOk, disj⟩ := inv
  have hfmem : f ∈ pre ++ f :: S := List.mem_append_right _ (List.mem_cons_self f S)
  have hfP := flPos f hfmem
  have hnextv : get_next h f = S.headD 0 := chain_next_at h pre S f chain
  have hprevv : get_prev h f = h (16 * f) := get_prev_eq h f
  have hPOS : prevOk h f S := ((prevOk_append h pre 0 (f :: S)).mp prevs).2.2
  have hLL : (liveRgns live).Pairwise disjR := (List.pairwise_append.mp disj).1
  have hFF : (freeRgns h (pre ++ f :: S)).Pairwise disjR := (List.pairwise_append.mp disj).2.1
  have hLF : ∀ x ∈ liveRgns live, ∀ y ∈ freeRgns h (pre ++ f :: S), disjR x y :=
    (List.pairwise_append.mp disj).2.2
  have hFLpair : ∀ a ∈ pre ++ f :: S, ∀ b ∈ pre ++ f :: S, a ≠ b →
      disjR (16 * a, 16 * h (16 * a + 1)) (16 * b, 16 * h (16 * b + 1)) := by
    intro a ha b hb hab
    have hm : (freeRgns h (pre ++ f :: S)).Pairwise disjR := hFF
    unfold freeRgns at hm
    have hp := List.pairwise_map.mp hm
    exact hp.forall (by intro x y hxy; exact disjR_symm hxy) ha hb hab
  have hLf : ∀ r ∈ liveRgns live, disjR (16 * f, 16 * h (16 * f + 1)) r := by
    intro r hr
    refine disjR_symm (hLF r hr _ ?_)
    unfold freeRgns
    exact List.mem_map_of_mem _ hfmem
  have hLg : ∀ r ∈ liveRgns live, ∀ g ∈ pre ++ f :: S,
      disjR r (16 * g, 16 * h (16 * g + 1)) := by
    intro r hr g hg
    refine hLF r hr _ ?_
    unfold freeRgns
    exact List.mem_map_of_mem _ hg
  have hSsub : S.Sublist (pre ++ f :: S) :=
    (List.sublist_cons_self f S).trans (List.sublist_append_right pre (f :: S))
  have hfnotS : f ∉ S := by
    have hnd := List.nodup_middle.mp flNodup
    have h1 := (List.nodup_cons.mp hnd).1
    intro hx
    exact h1 (List.mem_append_right pre hx)
  have hSnd : S.Nodup := flNodup.sublist hSsub
  have hgbb : get_block_bytes h f = 16 * h (16 * f + 1) := by rw [gbb_eq]; ring
  rw [take_block_decomp h ((16 * q : Nat) : Int) f, hgbb, hprevv, hpz, hnextv]
  cases S with
  | nil =>
    simp only [List.headD_nil, ne_eq, not_true_eq_false, if_false]
    refine take_finish (writeByte h 0 0) live [] f q (h (16 * f + 1)) ?_ ?_ ?_ ?_ ?_ ?_ ?_ ?_ ?_
      (by omega) (by omega) hq1 hfit (by omega) (by omega)
    · -- wf
      intro i
      by_cases hi : i = 0
      · subst hi
        rw [wb_eq]
        omega
      · rw [wb_ne _ _ _ _ hi]
        exact wf i
    · -- headOk
      rw [wb_eq]
      rfl
    · -- chain
      exact List.chain'_singleton 0
    · -- flPos
      intro g hg
      exact absurd hg (List.not_mem_nil g)
    · -- flNodup
      exact List.nodup_nil
    · -- prevs
      trivial
    · -- liveOk
      intro p hp
      obtain ⟨j, hj1, hj2, hj3, hj4, hj5, hj6⟩ := liveOk p hp
      have hjo : writeByte h 0 0 (16 * j) = h (16 * j) := wb_ne _ _ _ _ (by omega)
      exact ⟨j, hj1, hj2, hj3, by rw [hjo]; exact hj4, by rw [hjo]; exact hj5, hj6⟩
    · -- disj
      show (liveRgns live ++ freeRgns (writeByte h 0 0) []).Pairwise disjR
      rw [show freeRgns (writeByte h 0 0) [] = [] from rfl, List.append_nil]
      exact hLL
    · -- fresh
      intro r hr
      rw [show freeRgns (writeByte h 0 0) [] = [] from rfl, List.append_nil] at hr
      exact hLf r hr
  | cons n S2 =>
    have hnmem : n ∈ pre ++ f :: n :: S2 :=
      List.mem_append_right _ (List.mem_cons_of_mem f (List.mem_cons_self n S2))
    have hnP := flPos n hnmem
    have hn0 : n ≠ 0 := by omega
    simp only [List.headD_cons]
    rw [if_pos hn0, if_neg (by omega : ¬((0 : Nat) ≠ 0)), if_pos hn0, update_prev_eq]
    have hfn : f ≠ n := by
      intro hx
      exact hfnotS (hx ▸ List.mem_cons_self n S2)
    have h2o : ∀ j, j ≠ 0 → j ≠ 16 * n →
        writeByte (writeByte h 0 n) (16 * n) 0 j = h j := by
      intro j hj0 hjn
      rw [wb_ne _ _ _ _ hjn, wb_ne _ _ _ _ hj0]
    have h2sz : ∀ g ∈ n :: S2, writeByte (writeByte h 0 n) (16 * n) 0 (16 * g + 1) =
        h (16 * g + 1) :=
      fun g _ => h2o _ (by omega) (by omega)
    have h2pv : ∀ g ∈ S2, writeByte (writeByte h 0 n) (16 * n) 0 (16 * g) = h (16 * g) := by
      intro g hg
      have hgP := flPos g (hSsub.subset (List.mem_cons_of_mem n hg))
      have hgn : g ≠ n := by
        intro hx
        exact (List.nodup_cons.mp hSnd).1 (hx ▸ hg)
      exact h2o _ (by omega) (by omega)
    have h2nx : ∀ g ∈ n :: S2, get_next (writeByte (writeByte h 0 n) (16 * n) 0) g =
        get_next h g := by
      intro g hg
      have hgP := flPos g (hSsub.subset hg)
      rw [get_next_eq, get_next_eq, h2sz g hg]
      exact h2o _ (by omega) (by omega)
    have h2fr : freeRgns (writeByte (writeByte h 0 n) (16 * n) 0) (n :: S2) =
        freeRgns h (n :: S2) := by
      unfold freeRgns
      refine List.map_congr_left ?_
      intro g hg
      rw [h2sz g hg]
    have hfrS : (freeRgns h (n :: S2)).Sublist (freeRgns h (pre ++ f :: n :: S2)) := by
      unfold freeRgns
      exact List.Sublist.map _ hSsub
    refine take_finish (writeByte (writeByte h 0 n) (16 * n) 0) live (n :: S2) f q
      (h (16 * f + 1)) ?_ ?_ ?_ ?_ hSnd ?_ ?_ ?_ ?_
      (by omega) (by omega) hq1 hfit (by omega) (by omega)
    · -- wf
      intro i
      by_cases hi2 : i = 16 * n
      · subst hi2
        rw [wb_eq]
        omega
      · rw [wb_ne _ _ _ _ hi2]
        by_cases hi1 : i = 0
        · subst hi1
          rw [wb_eq]
          omega
        · rw [wb_ne _ _ _ _ hi1]
          exact wf i
    · -- headOk
      rw [wb_ne _ _ _ _ (by omega : (0 : Nat) ≠ 16 * n), wb_eq]
      show n % 256 = (n :: S2).headD 0
      rw [List.headD_cons]
      omega
    · -- chain
      have hc1 : List.Chain' (nextRel h) ((n :: S2) ++ [0]) := by
        rw [List.append_assoc, List.cons_append] at chain
        exact ((List.chain'_append.mp chain).2.1).tail
      refine chain'_of_agree h _ ((n :: S2) ++ [0]) ?_ hc1
      intro a ha
      rw [List.dropLast_concat] at ha
      exact h2nx a ha
    · -- flPos
      intro g hg
      rw [h2sz g hg]
      exact flPos g (hSsub.subset hg)
    · -- prevs
      refine ⟨Or.inl ?_, ?_⟩
      · rw [wb_eq]
      · refine prevOk_congr h _ S2 n ?_ ?_
        · intro x hx
          exact h2pv x hx
        · exact hPOS.2
    · -- liveOk
      intro p hp
      obtain ⟨j, hj1, hj2, hj3, hj4, hj5, hj6⟩ := liveOk p hp
      have hd := hLg (p.1 - 1, p.2) (by
        unfold liveRgns
        exact List.mem_map_of_mem _ hp) n hnmem
      unfold disjR at hd
      simp only at hd
      have hjo : writeByte (writeByte h 0 n) (16 * n) 0 (16 * j) = h (16 * j) := by
        refine h2o _ (by omega) (by omega)
      exact ⟨j, hj1, hj2, hj3, by rw [hjo]; exact hj4, by rw [hjo]; exact hj5, hj6⟩
    · -- disj
      rw [h2fr]
      refine List.pairwise_append.mpr ⟨hLL, hFF.sublist hfrS, ?_⟩
      intro x hx y hy
      exact hLF x hx y (hfrS.subset hy)
    · -- fresh
      intro r hr
      rw [h2fr] at hr
      rcases List.mem_append.mp hr with hrl | hrf
      · exact hLf r hrl
      · unfold freeRgns at hrf
        obtain ⟨g, hg, rfl⟩ := List.mem_map.mp hrf
        refine hFLpair f hfmem g (hSsub.subset hg) ?_
        intro hx
        exact hfnotS (hx ▸ hg)

theorem headD_append_of_ne_nil (l1 l2 : List Nat) (h : l1 ≠ []) :
    (l1 ++ l2).headD 0 = l1.headD 0 := by
  cases l1 with
  | nil => exact absurd rfl h
  | cons a t => rfl

theorem getLast?_some : ∀ (l : List Nat) (d : Nat), l ≠ [] → l.getLast? = some (l.getLastD d)
  | [], _, h => absurd rfl h
  | [_], _, _ => rfl
  | a :: b :: t, _, _ => by
    rw [List.getLastD_cons, List.getLast?_cons_cons]
    exact getLast?_some (b :: t) a (by simp)

theorem mem_dropLast_ne_getLastD : ∀ (l : List Nat) (d : Nat), l.Nodup →
    ∀ a ∈ l.dropLast, a ≠ l.getLastD d
  | [], _, _, a, ha => absurd ha (List.not_mem_nil a)
  | [_], _, _, _, ha => by simp at ha
  | b :: c :: t, d, hnd, a, ha => by
    rw [List.getLastD_cons]
    rw [List.dropLast_cons₂] at ha
    rcases List.mem_cons.mp ha with h1 | h1
    · subst h1
      intro hx
      have hmem : (c :: t).getLastD a ∈ c :: t := getLastD_mem (c :: t) a (by simp)
      rw [← hx] at hmem
      exact (List.nodup_cons.mp hnd).1 hmem
    · exact mem_dropLast_ne_getLastD (c :: t) b (List.nodup_cons.mp hnd).2 a h1

/-- Fit case of `rdx_malloc` when the winning block `f`'s prev byte is
non-zero: by the invariant it names `f`'s actual predecessor `p` (the last
block of `pre`), whose next pointer is spliced to `f`'s successor; the
successor's prev byte, if any, is set to `p`.  The chain becomes
`pre ++ S` with `f` removed. -/
theorem malloc_fit_mid (h : Heap) (live : List (Nat × Nat)) (pre S : List Nat) (f q : Nat)
    (inv : HeapInv h live (pre ++ f :: S)) (hq1 : 1 ≤ q) (hfit : q ≤ h (16 * f + 1))
    (hpnz : h (16 * f) ≠ 0) :
    ∃ FL3, HeapInv (take_block h ((16 * q : Nat) : Int) f)
      ((16 * f + 1, 16 * q) :: live) FL3 := by
  obtain ⟨wf, headOk, chain, flPos, flNodup, prevs, liveOk, disj⟩ := inv
  have hfmem : f ∈ pre ++ f :: S := List.mem_append_right _ (List.mem_cons_self f S)
  have hfP := flPos f hfmem
  have hnextv : get_next h f = S.headD 0 := chain_next_at h pre S f chain
  have hprevv : get_prev h f = h (16 * f) := get_prev_eq h f
  have hPO := (prevOk_append h pre 0 (f :: S)).mp prevs
  have hPOf : h (16 * f) = 0 ∨ h (16 * f) = pre.getLastD 0 := hPO.2.1
  have hPOS : prevOk h f S := hPO.2.2
  have hpeqp : h (16 * f) = pre.getLastD 0 := by
    rcases hPOf with h0 | h0
    · exact absurd h0 hpnz
    · exact h0
  have hprene : pre ≠ [] := by
    intro hx
    subst hx
    exact hpnz (by simpa using hpeqp)
  have hpmem : pre.getLastD 0 ∈ pre := getLastD_mem pre 0 hprene
  have hpmemFL : pre.getLastD 0 ∈ pre ++ f :: S := List.mem_append_left _ hpmem
  have hpP := flPos _ hpmemFL
  have hndA := List.nodup_append.mp flNodup
  have hpreNd : pre.Nodup := hndA.1
  have hdisjPS : ∀ a ∈ pre, a ∉ f :: S := hndA.2.2
  have hpnotfS : pre.getLastD 0 ∉ f :: S := hdisjPS _ hpmem
  have hpf : pre.getLastD 0 ≠ f := fun hx => hpnotfS (hx ▸ List.mem_cons_self f S)
  have hLL : (liveRgns live).Pairwise disjR := (List.pairwise_append.mp disj).1
  have hFF : (freeRgns h (pre ++ f :: S)).Pairwise disjR := (List.pairwise_append.mp disj).2.1
  have hLF : ∀ x ∈ liveRgns live, ∀ y ∈ freeRgns h (pre ++ f :: S), disjR x y :=
    (List.pairwise_append.mp disj).2.2
  have hFLpair : ∀ a ∈ pre ++ f :: S, ∀ b ∈ pre ++ f :: S, a ≠ b →
      disjR (16 * a, 16 * h (16 * a + 1)) (16 * b, 16 * h (16 * b + 1)) := by
    intro a ha b hb hab
    have hm : (freeRgns h (pre ++ f :: S)).Pairwise disjR := hFF
    unfold freeRgns at hm
    have hp := List.pairwise_map.mp hm
    exact hp.forall (by intro x y hxy; exact disjR_symm hxy) ha hb hab
  have hLf : ∀ r ∈ liveRgns live, disjR (16 * f, 16 * h (16 * f + 1)) r := by
    intro r hr
    refine disjR_symm (hLF r hr _ ?_)
    unfold freeRgns
    exact List.mem_map_of_mem _ hfmem
  have hLg : ∀ r ∈ liveRgns live, ∀ g ∈ pre ++ f :: S,
      disjR r (16 * g, 16 * h (16 * g + 1)) := by
    intro r hr g hg
    refine hLF r hr _ ?_
    unfold freeRgns
    exact List.mem_map_of_mem _ hg
  have hFL2sub : (pre ++ S).Sublist (pre ++ f :: S) :=
    (List.sublist_cons_self f S).append_left pre
  have hfnotPS : f ∉ pre ++ S := (List.nodup_cons.mp (List.nodup_middle.mp flNodup)).1
  have hFL2nd : (pre ++ S).Nodup := (List.nodup_cons.mp (List.nodup_middle.mp flNodup)).2
  have hgbb : get_block_bytes h f = 16 * h (16 * f + 1) := by rw [gbb_eq]; ring
  have hchain' : List.Chain' (nextRel h) (pre ++ (f :: (S ++ [0]))) := by
    rw [List.append_assoc, List.cons_append] at chain
    exact chain
  have hcdec := List.chain'_append.mp hchain'
  have hchainPre : List.Chain' (nextRel h) pre := hcdec.1
  have hchainS : List.Chain' (nextRel h) (S ++ [0]) := hcdec.2.1.tail
  rw [take_block_decomp h ((16 * q : Nat) : Int) f, hgbb, hprevv, hpeqp, hnextv]
  cases S with
  | nil =>
    simp only [List.headD_nil, ne_eq, not_true_eq_false, if_false]
    rw [if_pos (by rw [← hpeqp]; exact fun hx => hpnz hx), update_next_eq]
    have h2o : ∀ j, j ≠ 16 * pre.getLastD 0 + 16 * h (16 * pre.getLastD 0 + 1) - 1 →
        writeByte h (16 * pre.getLastD 0 + 16 * h (16 * pre.getLastD 0 + 1) - 1) 0 j = h j :=
      fun j hj => wb_ne _ _ _ _ hj
    have h2sz : ∀ g ∈ pre, writeByte h
        (16 * pre.getLastD 0 + 16 * h (16 * pre.getLastD 0 + 1) - 1) 0 (16 * g + 1) =
        h (16 * g + 1) := by
      intro g hg
      have hgP := flPos g (List.mem_append_left _ hg)
      exact h2o _ (by omega)
    have h2pv : ∀ g ∈ pre, writeByte h
        (16 * pre.getLastD 0 + 16 * h (16 * pre.getLastD 0 + 1) - 1) 0 (16 * g) =
        h (16 * g) := by
      intro g hg
      have hgP := flPos g (List.mem_append_left _ hg)
      exact h2o _ (by omega)
    have h2nxo : ∀ g ∈ pre, g ≠ pre.getLastD 0 → get_next (writeByte h
        (16 * pre.getLastD 0 + 16 * h (16 * pre.getLastD 0 + 1) - 1) 0) g =
        get_next h g := by
      intro g hg hgp
      have hgP := flPos g (List.mem_append_left _ hg)
      have hpd := hFLpair g (List.mem_append_left _ hg) _ hpmemFL hgp
      unfold disjR at hpd
      simp only at hpd
      rw [get_next_eq, get_next_eq, h2sz g hg]
      exact h2o _ (by omega)
    have h2fr : freeRgns (writeByte h
        (16 * pre.getLastD 0 + 16 * h (16 * pre.getLastD 0 + 1) - 1) 0) pre =
        freeRgns h pre := by
      unfold freeRgns
      refine List.map_congr_left ?_
      intro g hg
      rw [h2sz g hg]
    have hfrS : (freeRgns h pre).Sublist (freeRgns h (pre ++ f :: [])) := by
      unfold freeRgns
      exact List.Sublist.map _ (List.sublist_append_left pre (f :: []))
    refine take_finish _ live pre f q (h (16 * f + 1)) ?_ ?_ ?_ ?_ hpreNd ?_ ?_ ?_ ?_
      (by omega) (by omega) hq1 hfit (by omega) (by omega)
    · -- wf
      intro i
      by_cases hi : i = 16 * pre.getLastD 0 + 16 * h (16 * pre.getLastD 0 + 1) - 1
      · subst hi
        rw [wb_eq]
        omega
      · rw [wb_ne _ _ _ _ hi]
        exact wf i
    · -- headOk
      rw [h2o 0 (by omega), headOk, headD_append_of_ne_nil pre (f :: []) hprene]
    · -- chain
      refine List.chain'_append.mpr ⟨?_, List.chain'_singleton 0, ?_⟩
      · refine chain'_of_agree h _ pre ?_ hchainPre
        intro a ha
        refine h2nxo a ((List.dropLast_sublist pre).subset ha) ?_
        exact mem_dropLast_ne_getLastD pre 0 hpreNd a ha
      · intro x hx y hy
        rw [getLast?_some pre 0 hprene] at hx
        have hx' : x = pre.getLastD 0 := by simpa using hx.symm
        subst hx'
        have hy' : y = 0 := by simpa using hy.symm
        subst hy'
        show get_next _ (pre.getLastD 0) = 0
        rw [get_next_eq, h2sz _ hpmem, wb_eq]
    · -- flPos
      intro g hg
      rw [h2sz g hg]
      exact flPos g (List.mem_append_left _ hg)
    · -- prevs
      cases hpre : pre with
      | nil => exact absurd hpre hprene
      | cons g1 r =>
        subst hpre
        refine ⟨?_, ?_⟩
        · rw [h2pv g1 (List.mem_cons_self g1 r)]
          exact prevs.1
        · refine prevOk_congr h _ r g1 ?_ ?_
          · intro x hx
            exact h2pv x (List.mem_cons_of_mem g1 hx)
          · exact (hPO.1).2
    · -- liveOk
      intro pp hpp
      obtain ⟨j, hj1, hj2, hj3, hj4, hj5, hj6⟩ := liveOk pp hpp
      have hd := hLg (pp.1 - 1, pp.2) (by
        unfold liveRgns
        exact List.mem_map_of_mem _ hpp) _ hpmemFL
      unfold disjR at hd
      simp only at hd
      have hjo : writeByte h (16 * pre.getLastD 0 + 16 * h (16 * pre.getLastD 0 + 1) - 1) 0
          (16 * j) = h (16 * j) := by
        refine h2o _ (by omega)
      exact ⟨j, hj1, hj2, hj3, by rw [hjo]; exact hj4, by rw [hjo]; exact hj5, hj6⟩
    · -- disj
      rw [h2fr]
      refine List.pairwise_append.mpr ⟨hLL, hFF.sublist hfrS, ?_⟩
      intro x hx y hy
      exact hLF x hx y (hfrS.subset hy)
    · -- fresh
      intro r hr
      rw [h2fr] at hr
      rcases List.mem_append.mp hr with hrl | hrf
      · exact hLf r hrl
      · unfold freeRgns at hrf
        obtain ⟨g, hg, rfl⟩ := List.mem_map.mp hrf
        refine hFLpair f hfmem g (List.mem_append_left _ hg) ?_
        intro hx
        subst hx
        exact hfnotPS (by simpa using List.mem_append_left ([] : List Nat) hg)
  | cons n S2 =>
    have hnmem : n ∈ pre ++ f :: n :: S2 :=
      List.mem_append_right _ (List.mem_cons_of_mem f (List.mem_cons_self n S2))
    have hnP := flPos n hnmem
    have hn0 : n ≠ 0 := by omega
    have hnp : n ≠ pre.getLastD 0 := by
      intro hx
      exact hpnotfS (hx ▸ List.mem_cons_of_mem f (List.mem_cons_self n S2))
    have hpn : disjR (16 * pre.getLastD 0, 16 * h (16 * pre.getLastD 0 + 1))
        (16 * n, 16 * h (16 * n + 1)) :=
      hFLpair _ hpmemFL n hnmem (fun hx => hnp hx.symm)
    simp only [List.headD_cons]
    rw [if_pos hn0, if_pos (by rw [← hpeqp]; exact fun hx => hpnz hx),
      update_next_eq, update_prev_eq]
    have hInn : (16 : Nat) * n ≠ 16 * pre.getLastD 0 + 16 * h (16 * pre.getLastD 0 + 1) - 1 := by
      have := hpP
      omega
    have h2o : ∀ j, j ≠ 16 * pre.getLastD 0 + 16 * h (16 * pre.getLastD 0 + 1) - 1 →
        j ≠ 16 * n →
        writeByte (writeByte h (16 * pre.getLastD 0 + 16 * h (16 * pre.getLastD 0 + 1) - 1) n)
          (16 * n) (pre.getLastD 0) j = h j := by
      intro j hj1 hj2
      rw [wb_ne _ _ _ _ hj2, wb_ne _ _ _ _ hj1]
    have h2In : writeByte (writeByte h
        (16 * pre.getLastD 0 + 16 * h (16 * pre.getLastD 0 + 1) - 1) n)
        (16 * n) (pre.getLastD 0)
        (16 * pre.getLastD 0 + 16 * h (16 * pre.getLastD 0 + 1) - 1) = n := by
      rw [wb_ne _ _ _ _ (by omega), wb_eq]
      omega
    have h2n : writeByte (writeByte h
        (16 * pre.getLastD 0 + 16 * h (16 * pre.getLastD 0 + 1) - 1) n)
        (16 * n) (pre.getLastD 0) (16 * n) = pre.getLastD 0 := by
      rw [wb_eq]
      have := hpP
      omega
    have h2sz : ∀ g ∈ pre ++ n :: S2, writeByte (writeByte h
        (16 * pre.getLastD 0 + 16 * h (16 * pre.getLastD 0 + 1) - 1) n)
        (16 * n) (pre.getLastD 0) (16 * g + 1) = h (16 * g + 1) := by
      intro g hg
      have hgP := flPos g (hFL2sub.subset hg)
      have hppP := hpP
      exact h2o _ (by omega) (by omega)
    have h2pv : ∀ g ∈ pre ++ n :: S2, g ≠ n → writeByte (writeByte h
        (16 * pre.getLastD 0 + 16 * h (16 * pre.getLastD 0 + 1) - 1) n)
        (16 * n) (pre.getLastD 0) (16 * g) = h (16 * g) := by
      intro g hg hgn
      have hgP := flPos g (hFL2sub.subset hg)
      have hppP := hpP
      exact h2o _ (by omega) (by omega)
    have h2nxo : ∀ g ∈ pre ++ n :: S2, g ≠ pre.getLastD 0 → get_next (writeByte (writeByte h
        (16 * pre.getLastD 0 + 16 * h (16 * pre.getLastD 0 + 1) - 1) n)
        (16 * n) (pre.getLastD 0)) g = get_next h g := by
      intro g hg hgp
      have hgP := flPos g (hFL2sub.subset hg)
      have hpd := hFLpair g (hFL2sub.subset hg) _ hpmemFL hgp
      unfold disjR at hpd
      simp only at hpd
      rw [get_next_eq, get_next_eq, h2sz g hg]
      exact h2o _ (by omega) (by omega)
    have h2fr : freeRgns (writeByte (writeByte h
        (16 * pre.getLastD 0 + 16 * h (16 * pre.getLastD 0 + 1) - 1) n)
        (16 * n) (pre.getLastD 0)) (pre ++ n :: S2) = freeRgns h (pre ++ n :: S2) := by
      unfold freeRgns
      refine List.map_congr_left ?_
      intro g hg
      rw [h2sz g hg]
    have hfrS : (freeRgns h (pre ++ n :: S2)).Sublist (freeRgns h (pre ++ f :: n :: S2)) := by
      unfold freeRgns
      exact List.Sublist.map _ hFL2sub
    refine take_finish _ live (pre ++ n :: S2) f q (h (16 * f + 1)) ?_ ?_ ?_ ?_ hFL2nd ?_ ?_ ?_ ?_
      (by omega) (by omega) hq1 hfit (by omega) (by omega)
    · -- wf
      intro i
      by_cases hi2 : i = 16 * n
      · subst hi2
        rw [wb_eq]
        omega
      · rw [wb_ne _ _ _ _ hi2]
        by_cases hi1 : i = 16 * pre.getLastD 0 + 16 * h (16 * pre.getLastD 0 + 1) - 1
        · subst hi1
          rw [wb_eq]
          omega
        · rw [wb_ne _ _ _ _ hi1]
          exact wf i
    · -- headOk
      have hppP := hpP
      rw [h2o 0 (by omega) (by omega), headOk,
        headD_append_of_ne_nil pre (f :: n :: S2) hprene,
        headD_append_of_ne_nil pre (n :: S2) hprene]
    · -- chain
      rw [List.append_assoc]
      refine List.chain'_append.mpr ⟨?_, ?_, ?_⟩
      · refine chain'_of_agree h _ pre ?_ hchainPre
        intro a ha
        refine h2nxo a (List.mem_append_left _ ((List.dropLast_sublist pre).subset ha)) ?_
        exact mem_dropLast_ne_getLastD pre 0 hpreNd a ha
      · refine chain'_of_agree h _ ((n :: S2) ++ [0]) ?_ hchainS
        intro a ha
        rw [List.dropLast_concat] at ha
        refine h2nxo a (List.mem_append_right _ ha) ?_
        intro hx
        exact hpnotfS (hx ▸ List.mem_cons_of_mem f ha)
      · intro x hx y hy
        rw [getLast?_some pre 0 hprene] at hx
        have hx' : x = pre.getLastD 0 := by simpa using hx.symm
        subst hx'
        rw [head?_append_singleton] at hy
        have hy' : y = (n :: S2).headD 0 := by simpa using hy.symm
        show get_next _ (pre.getLastD 0) = y
        rw [hy', List.headD_cons, get_next_eq, h2sz _ (List.mem_append_left _ hpmem), h2In]
    · -- flPos
      intro g hg
      rw [h2sz g hg]
      exact flPos g (hFL2sub.subset hg)
    · -- prevs
      refine (prevOk_append _ pre 0 (n :: S2)).mpr ⟨?_, ?_⟩
      · cases hpre : pre with
        | nil => exact absurd hpre hprene
        | cons g1 r =>
          subst hpre
          refine ⟨?_, ?_⟩
          · rw [h2pv g1 (List.mem_append_left _ (List.mem_cons_self g1 r)) (by
              intro hx
              apply hdisjPS g1 (List.mem_cons_self g1 r)
              rw [hx]
              exact List.mem_cons_of_mem f (List.mem_cons_self n S2))]
            exact prevs.1
          · refine prevOk_congr h _ r g1 ?_ ?_
            · intro x hx
              refine h2pv x (List.mem_append_left _ (List.mem_cons_of_mem g1 hx)) ?_
              intro hxn
              apply hdisjPS x (List.mem_cons_of_mem g1 hx)
              rw [hxn]
              exact List.mem_cons_of_mem f (List.mem_cons_self n S2)
            · exact (hPO.1).2
      · refine ⟨Or.inr h2n, ?_⟩
        refine prevOk_congr h _ S2 n ?_ (hPOS.2)
        intro x hx
        refine h2pv x (List.mem_append_right _ (List.mem_cons_of_mem n hx)) ?_
        intro hxn
        have hSnd : (n :: S2).Nodup :=
          flNodup.sublist ((List.sublist_cons_self f (n :: S2)).trans
            (List.sublist_append_right pre (f :: n :: S2)))
        exact (List.nodup_cons.mp hSnd).1 (hxn ▸ hx)
    · -- liveOk
      intro pp hpp
      obtain ⟨j, hj1, hj2, hj3, hj4, hj5, hj6⟩ := liveOk pp hpp
      have hd1 := hLg (pp.1 - 1, pp.2) (by
        unfold liveRgns
        exact List.mem_map_of_mem _ hpp) _ hpmemFL
      have hd2 := hLg (pp.1 - 1, pp.2) (by
        unfold liveRgns
        exact List.mem_map_of_mem _ hpp) n hnmem
      unfold disjR at hd1 hd2
      simp only at hd1 hd2
      have hppP := hpP
      have hjo : writeByte (writeByte h
          (16 * pre.getLastD 0 + 16 * h (16 * pre.getLastD 0 + 1) - 1) n)
          (16 * n) (pre.getLastD 0) (16 * j) = h (16 * j) := by
        refine h2o _ (by omega) (by omega)
      exact ⟨j, hj1, hj2, hj3, by rw [hjo]; exact hj4, by rw [hjo]; exact hj5, hj6⟩
    · -- disj
      rw [h2fr]
      refine List.pairwise_append.mpr ⟨hLL, hFF.sublist hfrS, ?_⟩
      intro x hx y hy
      exact hLF x hx y (hfrS.subset hy)
    · -- fresh
      intro r hr
      rw [h2fr] at hr
      rcases List.mem_append.mp hr with hrl | hrf
      · exact hLf r hrl
      · unfold freeRgns at hrf
        obtain ⟨g, hg, rfl⟩ := List.mem_map.mp hrf
        refine hFLpair f hfmem g (hFL2sub.subset hg) ?_
        intro hx
        exact hfnotPS (hx ▸ hg)

theorem malloc_fit (h : Heap) (live : List (Nat × Nat)) (pre S : List Nat) (f q : Nat)
    (inv : HeapInv h live (pre ++ f :: S)) (hq1 : 1 ≤ q) (hfit : q ≤ h (16 * f + 1)) :
    ∃ FL3, HeapInv (take_block h ((16 * q : Nat) : Int) f)
      ((16 * f + 1, 16 * q) :: live) FL3 := by
  by_cases hpz : h (16 * f) = 0
  · exact malloc_fit_head h live pre S f q inv hq1 hfit hpz
  · exact malloc_fit_mid h live pre S f q inv hq1 hfit hpz

/-- Walking the free list under the invariant: the loop terminates within
the fuel and either reports failure with the heap untouched (no listed
block fits) or allocates at the first fitting block, preserving the
invariant with the new allocation recorded. -/
theorem mallocLoop_spec (S : List Nat) : ∀ (pre : List Nat) (h : Heap)
    (live : List (Nat × Nat)) (q fuel : Nat),
    HeapInv h live (pre ++ S) → 1 ≤ q → S.length < fuel →
    ∃ r, mallocLoop h ((16 * q : Nat) : Int) (S.headD 0) fuel = some r ∧
      ((r = (h, none) ∧ ∀ f ∈ S, h (16 * f + 1) < q) ∨
       (∃ a FL3, r.2 = some a ∧ HeapInv r.1 ((a, 16 * q) :: live) FL3)) := by
  induction S with
  | nil =>
    intro pre h live q fuel inv hq hlen
    cases fuel with
    | zero => omega
    | succ fl =>
      refine ⟨(h, none), ?_, Or.inl ⟨rfl, by simp⟩⟩
      simp [mallocLoop]
  | cons f S' ih =>
    intro pre h live q fuel inv hq hlen
    cases fuel with
    | zero => simp at hlen
    | succ fl =>
      have hfmem : f ∈ pre ++ f :: S' := List.mem_append_right _ (List.mem_cons_self f S')
      have hfP := inv.flPos f hfmem
      have hf0 : ¬(f = 0) := by omega
      have hnx : get_next h f = S'.headD 0 := chain_next_at h pre S' f inv.chain
      rw [show (f :: S').headD 0 = f from rfl]
      by_cases hfit : q ≤ h (16 * f + 1)
      · obtain ⟨FL3, hinv3⟩ := malloc_fit h live pre S' f q inv hq hfit
        have hcond : ((16 * q : Nat) : Int) ≤ ((get_block_bytes h f : Nat) : Int) := by
          rw [gbb_eq]
          exact_mod_cast (by omega : (16 * q : Nat) ≤ h (16 * f + 1) * 16)
        refine ⟨(take_block h ((16 * q : Nat) : Int) f, some (f * 16 + 1)), ?_,
          Or.inr ⟨f * 16 + 1, FL3, rfl, ?_⟩⟩
        · simp only [mallocLoop]
          rw [if_neg hf0, if_pos hcond]
        · show HeapInv (take_block h ((16 * q : Nat) : Int) f)
            ((f * 16 + 1, 16 * q) :: live) FL3
          rw [show f * 16 + 1 = 16 * f + 1 from by ring]
          exact hinv3
      · have hcond : ¬(((16 * q : Nat) : Int) ≤ ((get_block_bytes h f : Nat) : Int)) := by
          rw [gbb_eq]
          have hlt : h (16 * f + 1) * 16 < 16 * q := by omega
          intro hx
          have := (Nat.cast_le (α := Int)).mp hx
          omega
        have inv' : HeapInv h live ((pre ++ [f]) ++ S') := by
          rw [List.append_assoc, List.singleton_append]
          exact inv
        obtain ⟨r, hr, hc⟩ := ih (pre ++ [f]) h live q fl inv' hq
          (by simp only [List.length_cons] at hlen; omega)
        refine ⟨r, ?_, ?_⟩
        · simp only [mallocLoop]
          rw [if_neg hf0, if_neg hcond, hnx]
          exact hr
        · rcases hc with ⟨hr1, hall⟩ | hsome
          · refine Or.inl ⟨hr1, ?_⟩
            intro g hg
            rcases List.mem_cons.mp hg with hgf | hgS
            · subst hgf
              omega
            · exact hall g hgS
          · exact Or.inr hsome

theorem chain_length_le (FL : List Nat) (hnd : FL.Nodup)
    (hmem : ∀ f ∈ FL, 1 ≤ f ∧ f ≤ 255) : FL.length ≤ 255 := by
  have h1 : FL.toFinset ⊆ Finset.Icc 1 255 := by
    intro x hx
    rw [List.mem_toFinset] at hx
    have := hmem x hx
    rw [Finset.mem_Icc]
    omega
  have h2 := Finset.card_le_card h1
  rw [List.toFinset_card_of_nodup hnd, Nat.card_Icc] at h2
  omega

theorem rounded_pos (bytes : Int) (hb : 0 ≤ bytes) :
    ∃ q : Nat, 1 ≤ q ∧ rounded bytes = ((16 * q : Nat) : Int) := by
  have hdvd : (16 : Int) ∣ rounded bytes := by
    simp only [rounded, cmod]
    split_ifs <;> omega
  have hge : bytes + 1 ≤ rounded bytes := by
    simp only [rounded, cmod]
    split_ifs <;> omega
  obtain ⟨t, ht⟩ := hdvd
  refine ⟨t.toNat, by omega, ?_⟩
  rw [ht]
  push_cast
  omega

/-- Top-level `rdx_malloc` under the invariant: the loop terminates, and
either fails leaving the heap exactly as it was, or returns an address
and the invariant holds with the new allocation recorded. -/
theorem malloc_spec (h : Heap) (live : List (Nat × Nat)) (FL : List Nat) (bytes : Int)
    (inv : HeapInv h live FL) (hb : 0 ≤ bytes) :
    ∃ r, rdx_malloc h bytes = some r ∧
      (r = (h, none) ∨
       ∃ a FL3, r.2 = some a ∧ HeapInv r.1 ((a, (rounded bytes).toNat) :: live) FL3) := by
  obtain ⟨q, hq1, hreq⟩ := rounded_pos bytes hb
  have hlen : FL.length < 4096 := by
    have := chain_length_le FL inv.flNodup
      (fun f hf => ⟨(inv.flPos f hf).1, (inv.flPos f hf).2.1⟩)
    omega
  obtain ⟨r, hr, hc⟩ := mallocLoop_spec FL [] h live q 4096 (by simpa using inv) hq1 hlen
  refine ⟨r, ?_, ?_⟩
  · unfold rdx_malloc read_unsigned
    rw [hreq, inv.headOk]
    exact hr
  · rcases hc with ⟨h1, _⟩ | ⟨a, FL3, ha, hinv⟩
    · exact Or.inl h1
    · refine Or.inr ⟨a, FL3, ha, ?_⟩
      rw [hreq, show (((16 * q : Nat) : Int)).toNat = 16 * q from by omega]
      exact hinv

/-- The freshly initialized arena satisfies the invariant with the single
255-chunk block 1 on the free list and nothing live. -/
theorem initial_inv : HeapInv initial [] [1] := by
  constructor
  · intro i
    simp only [initial, init_heap, heap0, writeByte]
    split_ifs <;> omega
  · decide
  · refine List.chain'_cons.mpr ⟨?_, List.chain'_singleton 0⟩
    show get_next initial 1 = 0
    decide
  · intro f hf
    have hf1 : f = 1 := by simpa using hf
    subst hf1
    refine ⟨by omega, by omega, by decide, by decide, by decide⟩
  · simp
  · exact ⟨Or.inl (by decide), trivial⟩
  · intro p hp
    exact absurd hp (List.not_mem_nil p)
  · show ((liveRgns [] ++ freeRgns initial [1])).Pairwise disjR
    unfold liveRgns freeRgns
    simp

/-- Every reachable state satisfies the allocator invariant for some
free-list chain. -/
theorem reach_inv : ∀ {h : Heap} {live : List (Nat × Nat)}, Reach h live →
    ∃ FL, HeapInv h live FL := by
  intro h live hr
  induction hr with
  | init => exact ⟨[1], initial_inv⟩
  | @mallocSome h0 live0 h' bytes a hre hb hm ih =>
    obtain ⟨FL, inv⟩ := ih
    obtain ⟨r, hr', hc⟩ := malloc_spec h0 live0 FL bytes inv hb
    rw [hm] at hr'
    have hreq : r = (h', some a) := (Option.some.inj hr').symm
    subst hreq
    rcases hc with h1 | ⟨a', FL3, ha', hinv⟩
    · exact absurd (congrArg Prod.snd h1) (by simp)
    · have ha'' : a' = a := by simpa using ha'.symm
      subst ha''
      exact ⟨FL3, hinv⟩
  | @mallocNone h0 live0 h' bytes hre hb hm ih =>
    obtain ⟨FL, inv⟩ := ih
    obtain ⟨r, hr', hc⟩ := malloc_spec h0 live0 FL bytes inv hb
    rw [hm] at hr'
    have hreq : r = (h', none) := (Option.some.inj hr').symm
    subst hreq
    rcases hc with h1 | ⟨a', FL3, ha', hinv⟩
    · have hh : h' = h0 := congrArg Prod.fst h1
      subst hh
      exact ⟨FL, inv⟩
    · exact absurd ha' (by simp)
  | @freeStep h0 l1 l2 a n hre ih =>
    obtain ⟨FL, inv⟩ := ih
    have hmem : (a, n) ∈ l1 ++ (a, n) :: l2 :=
      List.mem_append_right _ (List.mem_cons_self _ _)
    obtain ⟨j, hj1, hj2, hj3, hj4, hj5, hj6⟩ := inv.liveOk _ hmem
    simp only at hj1 hj4 hj6
    have h1 : (liveRgns (l1 ++ (a, n) :: l2)).Perm ((a - 1, n) :: liveRgns (l1 ++ l2)) := by
      unfold liveRgns
      rw [List.map_append, List.map_cons, List.map_append]
      exact List.perm_middle
    have hbig : ((a - 1, n) :: (liveRgns (l1 ++ l2) ++ freeRgns h0 FL)).Pairwise
        disjR := by
      refine pairwise_disj_perm ?_ inv.disj
      rw [← List.cons_append]
      exact h1.append_right _
    have hfre0 := (List.pairwise_cons.mp hbig).1
    have hdisj0 := (List.pairwise_cons.mp hbig).2
    have he1 : a - 1 = 16 * j := by omega
    have he2 : n = 16 * h0 (16 * j) := hj4
    refine ⟨j :: FL, ?_⟩
    have hlive12 : ∀ p ∈ l1 ++ l2, p ∈ l1 ++ (a, n) :: l2 := by
      intro p hp
      rcases List.mem_append.mp hp with hpl | hpr
      · exact List.mem_append_left _ hpl
      · exact List.mem_append_right _ (List.mem_cons_of_mem _ hpr)
    have hpush := free_push h0 (l1 ++ l2) FL j inv.wf inv.headOk inv.chain
      inv.flPos inv.flNodup inv.prevs
      (fun p hp => inv.liveOk p (hlive12 p hp)) hdisj0
      hj2 hj3 hj5 (inv.wf _) (by omega) ?_
    · rw [show a = 16 * j + 1 from by omega]
      exact hpush
    · intro r hrr
      have := hfre0 r hrr
      rw [he1, he2] at this
      exact this

/-- Claim C1 (status: confirmed).  For every sequence of
initialize/acquire/release calls respecting the preconditions
(non-negative request sizes, release only on addresses previously
returned by acquire and not yet released), the full block regions of the
simultaneously-live allocations are pairwise disjoint: no two live
allocated regions overlap in arena bytes. -/
theorem C1_no_overlap {h : Heap} {live : List (Nat × Nat)} (hr : Reach h live) :
    live.Pairwise blockDisj := by
  obtain ⟨FL, inv⟩ := reach_inv hr
  have hLL : (liveRgns live).Pairwise disjR := (List.pairwise_append.mp inv.disj).1
  unfold liveRgns at hLL
  have hm := List.pairwise_map.mp hLL
  exact hm.imp (fun hab => hab)

/-- Witness for C1: the state after initialize; acquire(16) (returning
address 17 with a 32-byte block) is reachable, and its live list is
pairwise non-overlapping. -/
theorem C1_no_overlap_witness :
    ([((17 : Nat), (32 : Nat))] : List (Nat × Nat)).Pairwise blockDisj := by
  have hstep := @Reach.mallocSome initial [] (stepMalloc initial 16).1 16 17 Reach.init
    (by decide) (by rfl)
  have hpw := C1_no_overlap hstep
  rw [show ((rounded 16).toNat) = 32 from by decide] at hpw
  exact hpw

/-- If every block on the walk is too small, the loop walks to the
sentinel and returns NULL with the heap untouched. -/
theorem mallocLoop_none (h : Heap) (needed : Int) : ∀ (S : List Nat) (fuel : Nat),
    List.Chain' (nextRel h) (S ++ [0]) → (∀ f ∈ S, f ≠ 0) →
    (∀ f ∈ S, (get_block_bytes h f : Int) < needed) → S.length < fuel →
    mallocLoop h needed (S.headD 0) fuel = some (h, none)
  | [], fuel, _, _, _, hlen => by
    cases fuel with
    | zero => omega
    | succ fl => simp [mallocLoop]
  | f :: S', fuel, hchain, hnz, hsmall, hlen => by
    cases fuel with
    | zero => simp at hlen
    | succ fl =>
      have hf0 : ¬(f = 0) := hnz f (List.mem_cons_self f S')
      have hchain' : List.Chain' (nextRel h) (f :: (S' ++ [0])) := hchain
      have hdec := List.chain'_cons'.mp hchain'
      have hnx : get_next h f = S'.headD 0 := hdec.1 _ (by rw [head?_append_singleton]; rfl)
      have hcond : ¬(needed ≤ (get_block_bytes h f : Int)) := by
        have := hsmall f (List.mem_cons_self f S')
        omega
      simp only [List.headD_cons, mallocLoop]
      rw [if_neg hf0, if_neg hcond, hnx]
      exact mallocLoop_none h needed S' fl hdec.2
        (fun g hg => hnz g (List.mem_cons_of_mem f hg))
        (fun g hg => hsmall g (List.mem_cons_of_mem f hg))
        (by simp only [List.length_cons] at hlen; omega)

/-- Claim C7 (status: confirmed).  Whenever no block reachable from the
free-list head cell (the walk `L` from the head along next pointers,
ending at the sentinel) has length at least the needed rounded block
length, `rdx_malloc` terminates, returns NULL, and leaves every arena
byte — including the head cell — unchanged: the result heap is exactly
the input heap. -/
theorem C7_failed_acquire_no_mutation (h : Heap) (bytes : Int) (L : List Nat)
    (hhead : h 0 = L.headD 0)
    (hchain : List.Chain' (nextRel h) (L ++ [0]))
    (hnz : ∀ f ∈ L, f ≠ 0)
    (hlen : L.length < 4096)
    (hsmall : ∀ f ∈ L, (get_block_bytes h f : Int) < rounded bytes) :
    rdx_malloc h bytes = some (h, none) := by
  unfold rdx_malloc read_unsigned
  rw [hhead]
  exact mallocLoop_none h (rounded bytes) L 4096 hchain hnz hsmall hlen

/-- Witness for C7: on the fresh arena the walk is the single block 1 of
4080 bytes, a request of 4080 needs 4096 bytes, and the call fails
leaving the arena untouched. -/
theorem C7_failed_acquire_no_mutation_witness :
    rdx_malloc initial 4080 = some (initial, none) := by
  refine C7_failed_acquire_no_mutation initial 4080 [1] (by decide) ?_ ?_ (by simp) ?_
  · refine List.chain'_cons.mpr ⟨?_, List.chain'_singleton 0⟩
    show get_next initial 1 = 0
    decide
  · intro f hf
    have hf1 : f = 1 := by simpa using hf
    subst hf1
    decide
  · intro f hf
    have hf1 : f = 1 := by simpa using hf
    subst hf1
    show ((get_block_bytes initial 1 : Nat) : Int) < rounded 4080
    decide
